import Mathlib

/-!
# Verification of src/record_linkage.py

Shallow embedding of the Fellegi-Sunter record-linkage core of
src/record_linkage.py and proofs about it.

Modelling conventions:
* A comparison pattern is a triple of the three similarity categories
  low / medium / high, giving the 27-pattern domain of the program.
* Python floats are modelled by the rationals.
* The external per-row scoring (jellyfish.jaro_winkler plus
  util.get_jw_category) is an external collaborator, so a training sample is
  modelled as the list of comparison patterns computed for its rows, and the
  pairwise classifier takes the pattern function of a pair of records as a
  parameter.
* Python dict iteration order is insertion order; every frequency dict of the
  program is created over the full 27-pattern domain in the order of the three
  nested loops of tuple_probs, so loops over a dict are loops over
  patternDomain.
* np.argsort with its default kind guarantees an ascending sorted permutation
  of the indices but leaves the order of tied indices implementation-defined
  for arrays above its small-array insertion-sort threshold of 16 elements
  (the to-rank list can hold up to 27).  The model uses a stable ascending
  insertion sort as one concrete representative; only tie-insensitive
  consequences of it (membership, permutation, non-strict sortedness) are
  read as guarantees of the program.  On arrays of at most 16 elements numpy
  itself sorts with its stable insertion sort, so the model agrees with numpy
  exactly there; the two-element tie counterexample lies in that range.
* The in-place list reversal of sort_by_cum_pr is modelled by returning the
  post-call state of the ranked list as a second component, which create_sets
  threads through its subsequent statements exactly as the mutation does.
-/

set_option maxHeartbeats 1600000
set_option maxRecDepth 4000

inductive Category : Type
  | low
  | medium
  | high
deriving DecidableEq, Fintype

abbrev Pattern : Type := Category × Category × Category

def defPattern : Pattern := (Category.low, Category.low, Category.low)

def categories : List Category := [Category.low, Category.medium, Category.high]

/-- The 27 comparison patterns, in the enumeration order of the three nested
loops of tuple_probs (the insertion order of every frequency dict of the
program). -/
def patternDomain : List Pattern :=
  categories.flatMap (fun c1 =>
    categories.flatMap (fun c2 => categories.map (fun c3 => (c1, c2, c3))))

theorem mem_patternDomain : ∀ t : Pattern, t ∈ patternDomain := by decide

theorem patternDomain_nodup : patternDomain.Nodup := by decide

theorem patternDomain_toFinset_univ : patternDomain.toFinset = Finset.univ := by
  apply Finset.eq_univ_of_forall
  intro t
  exact List.mem_toFinset.mpr (mem_patternDomain t)

/-! ## tuple_probs (lines 65-94) -/

/-- The counts dict of tuple_probs after the row loop: the number of sample
rows whose comparison pattern is t. -/
def countsOf (sample : List Pattern) (t : Pattern) : Nat := sample.count t

/-- sum(counts.values()) of tuple_probs. -/
def totalCounts (sample : List Pattern) : Nat :=
  (patternDomain.map (fun t => countsOf sample t)).sum

/-- freqs[t] = counts[t] / sum(counts.values()) of tuple_probs.  The
denominator is constant during the final loop because freqs is a copy of
counts and counts is no longer modified. -/
def tupleFreqs (sample : List Pattern) (t : Pattern) : ℚ :=
  (countsOf sample t : ℚ) / (totalCounts sample : ℚ)

/-- The Python exceptions relevant to the analysed code paths. -/
inductive PyError : Type
  | zeroDivisionError
  | configurationError
  | internalError
deriving DecidableEq

/-- tuple_probs: on an empty sample the division counts[t] / 0 raises
ZeroDivisionError in Python; otherwise the table of relative frequencies is
returned. -/
def tuple_probs (sample : List Pattern) : Except PyError (Pattern → ℚ) :=
  if totalCounts sample = 0 then Except.error PyError.zeroDivisionError
  else Except.ok (fun t => tupleFreqs sample t)

theorem countsOf_cons (x : Pattern) (s : List Pattern) (t : Pattern) :
    countsOf (x :: s) t = countsOf s t + if t = x then 1 else 0 := by
  rw [countsOf, countsOf, List.count_cons]
  congr 1
  by_cases h : t = x
  · subst h
    simp
  · simp [h, Ne.symm h]

theorem sum_counts_eq (sample : List Pattern) :
    ∑ t in patternDomain.toFinset, countsOf sample t = sample.length := by
  rw [patternDomain_toFinset_univ]
  induction sample with
  | nil => simp [countsOf]
  | cons x s ih =>
    calc ∑ t : Pattern, countsOf (x :: s) t
        = ∑ t : Pattern, (countsOf s t + if t = x then 1 else 0) :=
          Finset.sum_congr rfl (fun t _ => countsOf_cons x s t)
      _ = (∑ t : Pattern, countsOf s t) + ∑ t : Pattern, (if t = x then 1 else 0) :=
          Finset.sum_add_distrib
      _ = (x :: s).length := by
          rw [ih, Finset.sum_ite_eq' Finset.univ x (fun _ => 1)]
          simp

theorem totalCounts_eq_length (sample : List Pattern) :
    totalCounts sample = sample.length := by
  rw [← sum_counts_eq sample, totalCounts]
  exact (List.sum_toFinset (fun t => countsOf sample t) patternDomain_nodup).symm

/-- C4: on a non-empty sample, tuple_probs returns a table with an entry for
every pattern of the full 27-pattern domain, every entry in [0, 1], and the
entries over the domain summing to exactly 1. -/
theorem tuple_probs_full_domain_unit_sum (sample : List Pattern) (h : sample ≠ []) :
    ∃ f : Pattern → ℚ, tuple_probs sample = Except.ok f ∧
      (∀ t : Pattern, t ∈ patternDomain) ∧
      (∀ t : Pattern, 0 ≤ f t ∧ f t ≤ 1) ∧
      ∑ t in patternDomain.toFinset, f t = 1 := by
  have hlen : 0 < sample.length := List.length_pos.mpr h
  have hN : totalCounts sample ≠ 0 := by
    rw [totalCounts_eq_length]
    omega
  have hNpos : (0 : ℚ) < (totalCounts sample : ℚ) := by
    exact_mod_cast Nat.pos_of_ne_zero hN
  refine ⟨tupleFreqs sample, ?_, mem_patternDomain, ?_, ?_⟩
  · rw [tuple_probs, if_neg hN]
  · intro t
    constructor
    · apply div_nonneg _ hNpos.le
      exact_mod_cast Nat.zero_le _
    · rw [tupleFreqs, div_le_one hNpos]
      have hle : countsOf sample t ≤ totalCounts sample := by
        rw [totalCounts_eq_length]
        exact List.count_le_length t sample
      exact_mod_cast hle
  · have hsum : ∑ t in patternDomain.toFinset, tupleFreqs sample t
        = (∑ t in patternDomain.toFinset, (countsOf sample t : ℚ)) / (totalCounts sample : ℚ) := by
      rw [Finset.sum_div]
      rfl
    rw [hsum, ← Nat.cast_sum, sum_counts_eq, ← totalCounts_eq_length]
    exact div_self (by exact_mod_cast hN)

/-- C5 counterexample: on the empty sample tuple_probs does not fail with a
ConfigurationError (there is no such error in the program); it hits an
unhandled division by zero. -/
theorem tuple_probs_empty_not_configuration :
    tuple_probs [] ≠ Except.error PyError.configurationError := by
  have h : tuple_probs [] = Except.error PyError.zeroDivisionError := rfl
  rw [h]
  simp

/-- C5 amended: on an empty training sample tuple_probs fails with an
unhandled ZeroDivisionError surfaced to the caller (counts[t] / 0), rather
than returning any table silently. -/
theorem tuple_probs_empty_zero_division :
    tuple_probs [] = Except.error PyError.zeroDivisionError := rfl

/-! ## create_sets, rank_tuples, sort_by_cum_pr (lines 97-188) -/

/-- The triage loop of create_sets, branch u == 0 and m == 0: the initial
possible_tuples set. -/
def possibleTriage (freqs_m freqs_u : Pattern → ℚ) : Finset Pattern :=
  (patternDomain.filter (fun t => decide (freqs_u t = 0 ∧ freqs_m t = 0))).toFinset

/-- The triage loop of create_sets, branch u == 0 and m ≠ 0: the front list,
in dict order. -/
def frontList (freqs_m freqs_u : Pattern → ℚ) : List Pattern :=
  patternDomain.filter (fun t => decide (freqs_u t = 0 ∧ ¬ freqs_m t = 0))

/-- The triage loop of create_sets, branch u ≠ 0: tuples_to_rank, in dict
order. -/
def tuplesToRank (freqs_u : Pattern → ℚ) : List Pattern :=
  patternDomain.filter (fun t => decide (¬ freqs_u t = 0))

/-- The ratios list of create_sets: m(t) / u(t) for each tuple to rank, in the
same order as tuplesToRank. -/
def ratiosList (freqs_m freqs_u : Pattern → ℚ) : List ℚ :=
  (tuplesToRank freqs_u).map (fun t => freqs_m t / freqs_u t)

/-- Stable insertion of index i into an index list that is sorted by ascending
key: i moves past every j whose key is not above the key of i. -/
def insertAsc (key : Nat → ℚ) (i : Nat) : List Nat → List Nat
  | [] => [i]
  | j :: js => if key i < key j then i :: j :: js else j :: insertAsc key i js

/-- np.argsort of rank_tuples: an ascending sort of the indices 0, ..., n-1
by their keys.  numpy guarantees the sorted permutation but, with the default
kind, not the order of tied indices on arrays above 16 elements; this model
is one concrete representative (a stable insertion sort), and it coincides
with numpy on arrays of at most 16 elements, where numpy uses its own stable
insertion sort.  Statements meant as guarantees of the program use only its
tie-insensitive properties, or concrete inputs within that small range. -/
def argsort (xs : List ℚ) : List Nat :=
  (List.range xs.length).foldl (fun acc i => insertAsc (fun k => xs.getD k 0) i acc) []

/-- rank_tuples: order = reversed argsort of the ratios, ranked = front
followed by the tuples_to_rank entries picked in that order. -/
def rank_tuples (front toRank : List Pattern) (ratios : List ℚ) : List Pattern :=
  front ++ (argsort ratios).reverse.map (fun i => toRank.getD i defPattern)

/-- The cumulative loop of sort_by_cum_pr: walk the list, add freqs[t] to the
running sum, keep t while the sum stays at or below the level, and stop at the
first t that pushes the sum above the level. -/
def cumAdd (level : ℚ) (freqs : Pattern → ℚ) : List Pattern → ℚ → Finset Pattern
  | [], _ => ∅
  | t :: ts, c =>
    if c + freqs t ≤ level then insert t (cumAdd level freqs ts (c + freqs t)) else ∅

/-- sort_by_cum_pr.  The first component is the returned tuples_set; the
second component is the state of the ranked list after the call: reversed in
place when left_tail is false, untouched when left_tail is true. -/
def sort_by_cum_pr (level : ℚ) (ranked : List Pattern) (freqs : Pattern → ℚ)
    (left_tail : Bool) : Finset Pattern × List Pattern :=
  let r := if left_tail then ranked else ranked.reverse
  (cumAdd level freqs r 0, r)

/-- The ranked list of create_sets as first built by rank_tuples. -/
def rankedList (freqs_m freqs_u : Pattern → ℚ) : List Pattern :=
  rank_tuples (frontList freqs_m freqs_u) (tuplesToRank freqs_u)
    (ratiosList freqs_m freqs_u)

/-- match_tuples of create_sets. -/
def matchTuples (freqs_m freqs_u : Pattern → ℚ) (mu : ℚ) : Finset Pattern :=
  (sort_by_cum_pr mu (rankedList freqs_m freqs_u) freqs_u true).1

/-- The ranked list after the first sort_by_cum_pr call (unchanged, since
left_tail is true there). -/
def rankedAfterMatch (freqs_m freqs_u : Pattern → ℚ) (mu : ℚ) : List Pattern :=
  (sort_by_cum_pr mu (rankedList freqs_m freqs_u) freqs_u true).2

/-- unmatch_tuples_full of create_sets: the bottom cutoff before the
disjointness subtraction. -/
def unmatchTuplesFull (freqs_m freqs_u : Pattern → ℚ) (mu lmbda : ℚ) : Finset Pattern :=
  (sort_by_cum_pr lmbda (rankedAfterMatch freqs_m freqs_u mu) freqs_m false).1

/-- The ranked list after the second sort_by_cum_pr call (reversed in place,
since left_tail is false there). -/
def rankedAfterUnmatch (freqs_m freqs_u : Pattern → ℚ) (mu lmbda : ℚ) : List Pattern :=
  (sort_by_cum_pr lmbda (rankedAfterMatch freqs_m freqs_u mu) freqs_m false).2

/-- unmatch_tuples of create_sets: the bottom cutoff minus match_tuples. -/
def unmatchTuples (freqs_m freqs_u : Pattern → ℚ) (mu lmbda : ℚ) : Finset Pattern :=
  unmatchTuplesFull freqs_m freqs_u mu lmbda \ matchTuples freqs_m freqs_u mu

/-- possible_tuples of create_sets: the zero-evidence tuples plus the leftover
of ranked_set, where ranked_set is built from the ranked list in its state
after both sort_by_cum_pr calls. -/
def possibleTuples (freqs_m freqs_u : Pattern → ℚ) (mu lmbda : ℚ) : Finset Pattern :=
  possibleTriage freqs_m freqs_u ∪
    ((rankedAfterUnmatch freqs_m freqs_u mu lmbda).toFinset \
      (matchTuples freqs_m freqs_u mu ∪ unmatchTuples freqs_m freqs_u mu lmbda))

/-- create_sets: returns (possible_tuples, match_tuples, unmatch_tuples). -/
def create_sets (freqs_m freqs_u : Pattern → ℚ) (mu lmbda : ℚ) :
    Finset Pattern × Finset Pattern × Finset Pattern :=
  (possibleTuples freqs_m freqs_u mu lmbda, matchTuples freqs_m freqs_u mu,
    unmatchTuples freqs_m freqs_u mu lmbda)

theorem matchTuples_eq (freqs_m freqs_u : Pattern → ℚ) (mu : ℚ) :
    matchTuples freqs_m freqs_u mu = cumAdd mu freqs_u (rankedList freqs_m freqs_u) 0 := rfl

theorem rankedAfterMatch_eq (freqs_m freqs_u : Pattern → ℚ) (mu : ℚ) :
    rankedAfterMatch freqs_m freqs_u mu = rankedList freqs_m freqs_u := rfl

theorem unmatchTuplesFull_eq (freqs_m freqs_u : Pattern → ℚ) (mu lmbda : ℚ) :
    unmatchTuplesFull freqs_m freqs_u mu lmbda
      = cumAdd lmbda freqs_m (rankedList freqs_m freqs_u).reverse 0 := rfl

theorem rankedAfterUnmatch_eq (freqs_m freqs_u : Pattern → ℚ) (mu lmbda : ℚ) :
    rankedAfterUnmatch freqs_m freqs_u mu lmbda = (rankedList freqs_m freqs_u).reverse := rfl

theorem insertAsc_perm (key : Nat → ℚ) (i : Nat) (l : List Nat) :
    (insertAsc key i l).Perm (i :: l) := by
  induction l with
  | nil => simp [insertAsc]
  | cons j js ih =>
    rw [insertAsc]
    split
    · exact List.Perm.refl _
    · exact (ih.cons j).trans (List.Perm.swap i j js)

theorem insertAsc_mem (key : Nat → ℚ) (i : Nat) (l : List Nat) (x : Nat) :
    x ∈ insertAsc key i l ↔ x = i ∨ x ∈ l := by
  rw [(insertAsc_perm key i l).mem_iff, List.mem_cons]

theorem foldl_insertAsc_perm (key : Nat → ℚ) :
    ∀ (l acc : List Nat), (l.foldl (fun a i => insertAsc key i a) acc).Perm (l ++ acc) := by
  intro l
  induction l with
  | nil => intro acc; simp
  | cons i is ih =>
    intro acc
    rw [List.foldl_cons]
    exact (ih (insertAsc key i acc)).trans
      ((List.Perm.append_left is (insertAsc_perm key i acc)).trans List.perm_middle)

theorem argsort_perm (xs : List ℚ) : (argsort xs).Perm (List.range xs.length) := by
  have h := foldl_insertAsc_perm (fun k => xs.getD k 0) (List.range xs.length) []
  rwa [List.append_nil] at h

theorem map_getD_range (d : Pattern) :
    ∀ l : List Pattern, (List.range l.length).map (fun i => l.getD i d) = l := by
  intro l
  induction l with
  | nil => rfl
  | cons a t ih =>
    rw [List.length_cons, List.range_succ_eq_map, List.map_cons, List.map_map]
    have hcomp : ∀ i ∈ List.range t.length,
        ((fun i => (a :: t).getD i d) ∘ Nat.succ) i = t.getD i d := by
      intro i _
      simp
    rw [List.map_congr_left hcomp, ih]
    simp

theorem ratiosList_length (freqs_m freqs_u : Pattern → ℚ) :
    (ratiosList freqs_m freqs_u).length = (tuplesToRank freqs_u).length :=
  List.length_map _ _

theorem rankedRest_perm (freqs_m freqs_u : Pattern → ℚ) :
    ((argsort (ratiosList freqs_m freqs_u)).reverse.map
        (fun i => (tuplesToRank freqs_u).getD i defPattern)).Perm (tuplesToRank freqs_u) := by
  have h1 : (argsort (ratiosList freqs_m freqs_u)).reverse.Perm
      (List.range (tuplesToRank freqs_u).length) := by
    have h := (List.reverse_perm (argsort (ratiosList freqs_m freqs_u))).trans
      (argsort_perm (ratiosList freqs_m freqs_u))
    rwa [ratiosList_length] at h
  have h2 := h1.map (fun i => (tuplesToRank freqs_u).getD i defPattern)
  rwa [map_getD_range defPattern (tuplesToRank freqs_u)] at h2

theorem rankedList_toFinset (freqs_m freqs_u : Pattern → ℚ) :
    (rankedList freqs_m freqs_u).toFinset
      = (frontList freqs_m freqs_u).toFinset ∪ (tuplesToRank freqs_u).toFinset := by
  rw [rankedList, rank_tuples, List.toFinset_append,
    List.toFinset_eq_of_perm _ _ (rankedRest_perm freqs_m freqs_u)]

theorem mem_frontList (freqs_m freqs_u : Pattern → ℚ) (t : Pattern) :
    t ∈ frontList freqs_m freqs_u ↔ freqs_u t = 0 ∧ ¬ freqs_m t = 0 := by
  simp [frontList, List.mem_filter, mem_patternDomain t]

theorem mem_tuplesToRank (freqs_u : Pattern → ℚ) (t : Pattern) :
    t ∈ tuplesToRank freqs_u ↔ ¬ freqs_u t = 0 := by
  simp [tuplesToRank, List.mem_filter, mem_patternDomain t]

theorem mem_possibleTriage (freqs_m freqs_u : Pattern → ℚ) (t : Pattern) :
    t ∈ possibleTriage freqs_m freqs_u ↔ freqs_u t = 0 ∧ freqs_m t = 0 := by
  simp [possibleTriage, List.mem_filter, mem_patternDomain t]

theorem mem_cumAdd (level : ℚ) (freqs : Pattern → ℚ) :
    ∀ (l : List Pattern) (c : ℚ) (t : Pattern), t ∈ cumAdd level freqs l c → t ∈ l := by
  intro l
  induction l with
  | nil =>
    intro c t h
    simp [cumAdd] at h
  | cons a ts ih =>
    intro c t h
    rw [cumAdd] at h
    split at h
    · rcases Finset.mem_insert.mp h with h1 | h2
      · exact h1 ▸ List.mem_cons_self a ts
      · exact List.mem_cons_of_mem a (ih _ t h2)
    · simp at h

theorem cumAdd_sum_le (level : ℚ) (freqs : Pattern → ℚ) (hf : ∀ t, 0 ≤ freqs t) :
    ∀ (l : List Pattern) (c : ℚ), c ≤ level →
      c + ∑ t in cumAdd level freqs l c, freqs t ≤ level := by
  intro l
  induction l with
  | nil =>
    intro c hc
    simpa [cumAdd] using hc
  | cons a ts ih =>
    intro c hc
    rw [cumAdd]
    split
    case isTrue h =>
      have hrec := ih (c + freqs a) h
      have hins : ∑ t in insert a (cumAdd level freqs ts (c + freqs a)), freqs t
          ≤ freqs a + ∑ t in cumAdd level freqs ts (c + freqs a), freqs t := by
        by_cases ha : a ∈ cumAdd level freqs ts (c + freqs a)
        · rw [Finset.insert_eq_self.mpr ha]
          exact le_add_of_nonneg_left (hf a)
        · rw [Finset.sum_insert ha]
      linarith
    case isFalse h =>
      simpa using hc

theorem cumAdd_level_zero (freqs : Pattern → ℚ) (hf : ∀ t, 0 ≤ freqs t) :
    ∀ (l : List Pattern) (c : ℚ), 0 ≤ c → ∀ t ∈ cumAdd 0 freqs l c, freqs t = 0 := by
  intro l
  induction l with
  | nil =>
    intro c _ t ht
    simp [cumAdd] at ht
  | cons a ts ih =>
    intro c hc t ht
    rw [cumAdd] at ht
    split at ht
    case isTrue h =>
      have hfa : freqs a = 0 := le_antisymm (by linarith [hf a]) (hf a)
      rcases Finset.mem_insert.mp ht with h1 | h2
      · rw [h1, hfa]
      · exact ih (c + freqs a) (by rw [hfa]; simpa using hc) t h2
    case isFalse h =>
      simp at ht

theorem mem_matchTuples_ranked (freqs_m freqs_u : Pattern → ℚ) (mu : ℚ) (t : Pattern)
    (h : t ∈ matchTuples freqs_m freqs_u mu) : t ∈ rankedList freqs_m freqs_u := by
  rw [matchTuples_eq] at h
  exact mem_cumAdd mu freqs_u _ 0 t h

theorem mem_unmatchFull_ranked (freqs_m freqs_u : Pattern → ℚ) (mu lmbda : ℚ) (t : Pattern)
    (h : t ∈ unmatchTuplesFull freqs_m freqs_u mu lmbda) : t ∈ rankedList freqs_m freqs_u := by
  rw [unmatchTuplesFull_eq] at h
  exact List.mem_reverse.mp (mem_cumAdd lmbda freqs_m _ 0 t h)

theorem mem_ranked_cases (freqs_m freqs_u : Pattern → ℚ) (t : Pattern)
    (h : t ∈ rankedList freqs_m freqs_u) :
    t ∈ frontList freqs_m freqs_u ∨ t ∈ tuplesToRank freqs_u := by
  have h2 := List.mem_toFinset.mpr h
  rw [rankedList_toFinset] at h2
  rcases Finset.mem_union.mp h2 with h3 | h3
  · exact Or.inl (List.mem_toFinset.mp h3)
  · exact Or.inr (List.mem_toFinset.mp h3)

theorem possibleTriage_not_ranked (freqs_m freqs_u : Pattern → ℚ) (t : Pattern)
    (hp : t ∈ possibleTriage freqs_m freqs_u) : t ∉ rankedList freqs_m freqs_u := by
  intro hr
  rcases (mem_possibleTriage freqs_m freqs_u t).mp hp with ⟨hu, hm⟩
  rcases mem_ranked_cases freqs_m freqs_u t hr with hf | ht
  · exact ((mem_frontList freqs_m freqs_u t).mp hf).2 hm
  · exact ((mem_tuplesToRank freqs_u t).mp ht) hu

/-- The partition property of create_sets, for arbitrary tables and levels:
match_tuples, unmatch_tuples and possible_tuples are pairwise disjoint and
cover the 27-pattern domain. -/
theorem create_sets_partition (freqs_m freqs_u : Pattern → ℚ) (mu lmbda : ℚ) :
    (matchTuples freqs_m freqs_u mu ∩ unmatchTuples freqs_m freqs_u mu lmbda = ∅ ∧
     possibleTuples freqs_m freqs_u mu lmbda ∩ matchTuples freqs_m freqs_u mu = ∅ ∧
     possibleTuples freqs_m freqs_u mu lmbda ∩ unmatchTuples freqs_m freqs_u mu lmbda = ∅) ∧
    possibleTuples freqs_m freqs_u mu lmbda ∪ matchTuples freqs_m freqs_u mu ∪
      unmatchTuples freqs_m freqs_u mu lmbda = patternDomain.toFinset := by
  have hMr : ∀ t ∈ matchTuples freqs_m freqs_u mu, t ∈ rankedList freqs_m freqs_u :=
    mem_matchTuples_ranked freqs_m freqs_u mu
  have hUr : ∀ t ∈ unmatchTuples freqs_m freqs_u mu lmbda, t ∈ rankedList freqs_m freqs_u :=
    fun t ht => mem_unmatchFull_ranked freqs_m freqs_u mu lmbda t (Finset.mem_sdiff.mp ht).1
  refine ⟨⟨?_, ?_, ?_⟩, ?_⟩
  · apply Finset.eq_empty_iff_forall_not_mem.mpr
    intro t ht
    rcases Finset.mem_inter.mp ht with ⟨h1, h2⟩
    exact (Finset.mem_sdiff.mp h2).2 h1
  · apply Finset.eq_empty_iff_forall_not_mem.mpr
    intro t ht
    rcases Finset.mem_inter.mp ht with ⟨h1, h2⟩
    rcases Finset.mem_union.mp h1 with h3 | h3
    · exact possibleTriage_not_ranked freqs_m freqs_u t h3 (hMr t h2)
    · exact (Finset.mem_sdiff.mp h3).2 (Finset.mem_union.mpr (Or.inl h2))
  · apply Finset.eq_empty_iff_forall_not_mem.mpr
    intro t ht
    rcases Finset.mem_inter.mp ht with ⟨h1, h2⟩
    rcases Finset.mem_union.mp h1 with h3 | h3
    · exact possibleTriage_not_ranked freqs_m freqs_u t h3 (hUr t h2)
    · exact (Finset.mem_sdiff.mp h3).2 (Finset.mem_union.mpr (Or.inr h2))
  · apply Finset.ext
    intro t
    simp only [Finset.mem_union, List.mem_toFinset]
    constructor
    · intro _
      exact mem_patternDomain t
    · intro _
      by_cases hM : t ∈ matchTuples freqs_m freqs_u mu
      · exact Or.inl (Or.inr hM)
      by_cases hU : t ∈ unmatchTuples freqs_m freqs_u mu lmbda
      · exact Or.inr hU
      left
      left
      rw [possibleTuples]
      by_cases hu : freqs_u t = 0
      · by_cases hm : freqs_m t = 0
        · exact Finset.mem_union.mpr
            (Or.inl ((mem_possibleTriage freqs_m freqs_u t).mpr ⟨hu, hm⟩))
        · refine Finset.mem_union.mpr (Or.inr (Finset.mem_sdiff.mpr ⟨?_, ?_⟩))
          · rw [rankedAfterUnmatch_eq, List.toFinset_reverse, rankedList_toFinset]
            exact Finset.mem_union.mpr (Or.inl
              (List.mem_toFinset.mpr ((mem_frontList freqs_m freqs_u t).mpr ⟨hu, hm⟩)))
          · intro hc
            rcases Finset.mem_union.mp hc with h | h
            · exact hM h
            · exact hU h
      · refine Finset.mem_union.mpr (Or.inr (Finset.mem_sdiff.mpr ⟨?_, ?_⟩))
        · rw [rankedAfterUnmatch_eq, List.toFinset_reverse, rankedList_toFinset]
          exact Finset.mem_union.mpr (Or.inr
            (List.mem_toFinset.mpr ((mem_tuplesToRank freqs_u t).mpr hu)))
        · intro hc
          rcases Finset.mem_union.mp hc with h | h
          · exact hM h
          · exact hU h

/-- C1: for every pair of frequency tables over the full 27-pattern domain
and every mu and lambda, the three sets returned by create_sets are pairwise
disjoint and their union is the full pattern domain. -/
theorem create_sets_partitions_domain (freqs_m freqs_u : Pattern → ℚ) (mu lmbda : ℚ) :
    ((create_sets freqs_m freqs_u mu lmbda).2.1 ∩ (create_sets freqs_m freqs_u mu lmbda).2.2 = ∅ ∧
     (create_sets freqs_m freqs_u mu lmbda).1 ∩ (create_sets freqs_m freqs_u mu lmbda).2.1 = ∅ ∧
     (create_sets freqs_m freqs_u mu lmbda).1 ∩ (create_sets freqs_m freqs_u mu lmbda).2.2 = ∅) ∧
    (create_sets freqs_m freqs_u mu lmbda).1 ∪ (create_sets freqs_m freqs_u mu lmbda).2.1 ∪
      (create_sets freqs_m freqs_u mu lmbda).2.2 = patternDomain.toFinset :=
  create_sets_partition freqs_m freqs_u mu lmbda

/-! ## Concrete tables (the scenario of the specification, section 8) -/

def pHHH : Pattern := (Category.high, Category.high, Category.high)

def pLLL : Pattern := (Category.low, Category.low, Category.low)

def pLLM : Pattern := (Category.low, Category.low, Category.medium)

/-- m-table of the scenario in section 8 of the specification: all mass on
(high, high, high). -/
def exM : Pattern → ℚ := fun t => if t = pHHH then 1 else 0

/-- u-table of the scenario in section 8 of the specification: all mass on
(low, low, low). -/
def exU : Pattern → ℚ := fun t => if t = pLLL then 1 else 0

theorem rankedList_ex : rankedList exM exU = [pHHH, pLLL] := by decide

theorem matchTuples_ex_two : matchTuples exM exU 2 = {pHHH, pLLL} := by
  rw [matchTuples_eq, rankedList_ex]
  have h1 : exU pHHH = 0 := by decide
  have h2 : exU pLLL = 1 := by decide
  norm_num [cumAdd, h1, h2]

/-- C6 counterexample: called with mu = 2 and lambda = 2, both outside [0, 1],
create_sets raises nothing and produces a partition of the domain (it has no
validation code at all). -/
theorem create_sets_out_of_range_counterexample :
    (create_sets exM exU 2 2).1 ∪ (create_sets exM exU 2 2).2.1 ∪ (create_sets exM exU 2 2).2.2
      = patternDomain.toFinset ∧
    (create_sets exM exU 2 2).2.1 = {pHHH, pLLL} := by
  constructor
  · exact (create_sets_partition exM exU 2 2).2
  · exact matchTuples_ex_two

/-- C6 amended: create_sets performs no range validation of mu or lambda;
invoked with mu or lambda outside [0, 1] it does not fail and still returns
three pairwise disjoint sets covering the full pattern domain. -/
theorem create_sets_no_range_validation (freqs_m freqs_u : Pattern → ℚ) (mu lmbda : ℚ)
    (h : mu < 0 ∨ 1 < mu ∨ lmbda < 0 ∨ 1 < lmbda) :
    ((create_sets freqs_m freqs_u mu lmbda).2.1 ∩ (create_sets freqs_m freqs_u mu lmbda).2.2 = ∅ ∧
     (create_sets freqs_m freqs_u mu lmbda).1 ∩ (create_sets freqs_m freqs_u mu lmbda).2.1 = ∅ ∧
     (create_sets freqs_m freqs_u mu lmbda).1 ∩ (create_sets freqs_m freqs_u mu lmbda).2.2 = ∅) ∧
    (create_sets freqs_m freqs_u mu lmbda).1 ∪ (create_sets freqs_m freqs_u mu lmbda).2.1 ∪
      (create_sets freqs_m freqs_u mu lmbda).2.2 = patternDomain.toFinset :=
  create_sets_partition freqs_m freqs_u mu lmbda

theorem create_sets_no_range_validation_witness :
    ((create_sets exM exU 2 2).2.1 ∩ (create_sets exM exU 2 2).2.2 = ∅ ∧
     (create_sets exM exU 2 2).1 ∩ (create_sets exM exU 2 2).2.1 = ∅ ∧
     (create_sets exM exU 2 2).1 ∩ (create_sets exM exU 2 2).2.2 = ∅) ∧
    (create_sets exM exU 2 2).1 ∪ (create_sets exM exU 2 2).2.1 ∪ (create_sets exM exU 2 2).2.2
      = patternDomain.toFinset :=
  create_sets_no_range_validation exM exU 2 2 (Or.inr (Or.inl (by norm_num)))

/-- C2: for nonnegative tables and levels, the u-mass of match_tuples is at
most mu and the m-mass of the pre-subtraction bottom cutoff
unmatch_tuples_full is at most lambda. -/
theorem create_sets_cumulative_bounds (freqs_m freqs_u : Pattern → ℚ) (mu lmbda : ℚ)
    (hmu : 0 ≤ mu) (hl : 0 ≤ lmbda)
    (hfu : ∀ t, 0 ≤ freqs_u t) (hfm : ∀ t, 0 ≤ freqs_m t) :
    (∑ t in matchTuples freqs_m freqs_u mu, freqs_u t) ≤ mu ∧
    (∑ t in unmatchTuplesFull freqs_m freqs_u mu lmbda, freqs_m t) ≤ lmbda := by
  constructor
  · have h := cumAdd_sum_le mu freqs_u hfu (rankedList freqs_m freqs_u) 0 hmu
    rw [matchTuples_eq]
    linarith
  · have h := cumAdd_sum_le lmbda freqs_m hfm (rankedList freqs_m freqs_u).reverse 0 hl
    rw [unmatchTuplesFull_eq]
    linarith

theorem create_sets_cumulative_bounds_witness :
    (∑ t in matchTuples exM exU (1 / 10), exU t) ≤ 1 / 10 ∧
    (∑ t in unmatchTuplesFull exM exU (1 / 10) (1 / 10), exM t) ≤ 1 / 10 :=
  create_sets_cumulative_bounds exM exU (1 / 10) (1 / 10) (by norm_num) (by norm_num)
    (by decide) (by decide)

/-- C8: with mu = 0 and nonnegative tables, every member of match_tuples is a
front-list pattern: u-frequency zero and m-frequency strictly positive. -/
theorem matchTuples_mu_zero_front_only (freqs_m freqs_u : Pattern → ℚ)
    (hfu : ∀ t, 0 ≤ freqs_u t) (hfm : ∀ t, 0 ≤ freqs_m t)
    (t : Pattern) (ht : t ∈ matchTuples freqs_m freqs_u 0) :
    freqs_u t = 0 ∧ 0 < freqs_m t := by
  rw [matchTuples_eq] at ht
  have hu0 : freqs_u t = 0 :=
    cumAdd_level_zero freqs_u hfu (rankedList freqs_m freqs_u) 0 le_rfl t ht
  have hr : t ∈ rankedList freqs_m freqs_u := mem_cumAdd 0 freqs_u _ 0 t ht
  rcases mem_ranked_cases freqs_m freqs_u t hr with hf | htr
  · rcases (mem_frontList freqs_m freqs_u t).mp hf with ⟨_, hm⟩
    exact ⟨hu0, lt_of_le_of_ne (hfm t) (Ne.symm hm)⟩
  · exact absurd hu0 ((mem_tuplesToRank freqs_u t).mp htr)

theorem matchTuples_ex_zero : matchTuples exM exU 0 = {pHHH} := by
  rw [matchTuples_eq, rankedList_ex]
  have h1 : exU pHHH = 0 := by decide
  have h2 : exU pLLL = 1 := by decide
  norm_num [cumAdd, h1, h2]

theorem matchTuples_mu_zero_front_only_witness :
    exU pHHH = 0 ∧ 0 < exM pHHH :=
  matchTuples_mu_zero_front_only exM exU (by decide) (by decide) pHHH
    (by rw [matchTuples_ex_zero]; exact Finset.mem_singleton_self pHHH)

/-! ## C3: order produced by rank_tuples -/

/-- The strict ascending order on indices realised by the stable ascending
argsort: strictly smaller key, or equal key and smaller index. -/
def RAsc (key : Nat → ℚ) (i j : Nat) : Prop :=
  key i < key j ∨ (key i = key j ∧ i < j)

theorem insertAsc_pairwise (key : Nat → ℚ) (i : Nat) :
    ∀ l : List Nat, l.Pairwise (RAsc key) → (∀ j ∈ l, j < i) →
      (insertAsc key i l).Pairwise (RAsc key) := by
  intro l
  induction l with
  | nil =>
    intro _ _
    simp [insertAsc]
  | cons a ts ih =>
    intro hl hlt
    rw [List.pairwise_cons] at hl
    rw [insertAsc]
    split
    case isTrue h =>
      refine List.Pairwise.cons ?_ (List.Pairwise.cons hl.1 hl.2)
      intro y hy
      rcases List.mem_cons.mp hy with rfl | hy2
      · exact Or.inl h
      · rcases hl.1 y hy2 with h1 | h2
        · exact Or.inl (lt_trans h h1)
        · exact Or.inl (h2.1 ▸ h)
    case isFalse h =>
      refine List.Pairwise.cons ?_ (ih hl.2 (fun j hj => hlt j (List.mem_cons_of_mem a hj)))
      intro y hy
      rcases (insertAsc_mem key i ts y).mp hy with rfl | hy2
      · rcases lt_or_eq_of_le (not_lt.mp h) with h1 | h1
        · exact Or.inl h1
        · exact Or.inr ⟨h1, hlt a (List.mem_cons_self a ts)⟩
      · exact hl.1 y hy2

theorem argsort_pairwise (xs : List ℚ) :
    (argsort xs).Pairwise (RAsc (fun k => xs.getD k 0)) := by
  have haux : ∀ (l acc : List Nat), acc.Pairwise (RAsc (fun k => xs.getD k 0)) →
      (∀ j ∈ acc, ∀ i ∈ l, j < i) → l.Pairwise (· < ·) →
      (l.foldl (fun a i => insertAsc (fun k => xs.getD k 0) i a) acc).Pairwise
        (RAsc (fun k => xs.getD k 0)) := by
    intro l
    induction l with
    | nil =>
      intro acc h1 _ _
      simpa using h1
    | cons i is ih =>
      intro acc h1 h2 h3
      rw [List.foldl_cons]
      rw [List.pairwise_cons] at h3
      apply ih
      · exact insertAsc_pairwise (fun k => xs.getD k 0) i acc h1
          (fun j hj => h2 j hj i (List.mem_cons_self i is))
      · intro j hj i2 hi2
        rcases (insertAsc_mem (fun k => xs.getD k 0) i acc j).mp hj with rfl | hj2
        · exact h3.1 i2 hi2
        · exact h2 j hj2 i2 (List.mem_cons_of_mem i hi2)
      · exact h3.2
  have hrange : (List.range xs.length).Pairwise (· < ·) := List.sorted_lt_range xs.length
  exact haux (List.range xs.length) [] (List.Pairwise.nil) (by simp) hrange

/-- The ranking described by the words of the specification: front followed by
the to-rank tuples in descending ratio order, ties kept in their original
enumeration order (a stable descending sort of the indices). -/
def insertDescStable (key : Nat → ℚ) (i : Nat) : List Nat → List Nat
  | [] => [i]
  | j :: js => if key j < key i then i :: j :: js else j :: insertDescStable key i js

def rank_tuples_spec (front toRank : List Pattern) (ratios : List ℚ) : List Pattern :=
  front ++ ((List.range ratios.length).foldl
      (fun acc i => insertDescStable (fun k => ratios.getD k 0) i acc) []).map
      (fun i => toRank.getD i defPattern)

/-- C3 counterexample: on two tuples with equal ratio, rank_tuples returns
them in reversed enumeration order, not the stable original order stated by
the claim (the reversal of the ascending argsort reverses tied runs).  On a
two-element array np.argsort runs its stable insertion sort, so the model
computes exactly what the program computes on this input. -/
theorem rank_tuples_stable_tie_counterexample :
    rank_tuples [] [pLLL, pLLM] [1, 1] = [pLLM, pLLL] ∧
    rank_tuples_spec [] [pLLL, pLLM] [1, 1] = [pLLL, pLLM] ∧
    rank_tuples [] [pLLL, pLLM] [1, 1] ≠ rank_tuples_spec [] [pLLL, pLLM] [1, 1] := by
  refine ⟨by decide, by decide, by decide⟩

/-- C3 amended: the list produced by rank_tuples is the front list followed by
a permutation of the to-rank tuples whose ratios are non-increasing from
first to last; the order of tuples with equal ratio is not guaranteed (numpy
leaves it implementation-defined, and the counterexample shows the stable
enumeration order of the claim failing), so nothing is asserted about it. -/
theorem rank_tuples_front_desc_perm (front toRank : List Pattern) (ratios : List ℚ)
    (h : ratios.length = toRank.length) :
    ∃ order : List Nat,
      rank_tuples front toRank ratios
          = front ++ order.map (fun i => toRank.getD i defPattern) ∧
      order.Perm (List.range toRank.length) ∧
      order.Pairwise (fun i j => ratios.getD j 0 ≤ ratios.getD i 0) := by
  refine ⟨(argsort ratios).reverse, rfl, ?_, ?_⟩
  · have hp := (List.reverse_perm (argsort ratios)).trans (argsort_perm ratios)
    rwa [h] at hp
  · rw [List.pairwise_reverse]
    refine List.Pairwise.imp ?_ (argsort_pairwise ratios)
    intro a b hab
    have hab2 : ratios.getD a 0 < ratios.getD b 0 ∨
        (ratios.getD a 0 = ratios.getD b 0 ∧ a < b) := hab
    rcases hab2 with h1 | h2
    · exact le_of_lt h1
    · exact le_of_eq h2.1

theorem rank_tuples_front_desc_perm_witness :
    ∃ order : List Nat,
      rank_tuples [pHHH] [pLLL, pLLM] [1, 2]
          = [pHHH] ++ order.map (fun i => [pLLL, pLLM].getD i defPattern) ∧
      order.Perm (List.range ([pLLL, pLLM] : List Pattern).length) ∧
      order.Pairwise (fun i j => [(1 : ℚ), 2].getD j 0 ≤ [(1 : ℚ), 2].getD i 0) :=
  rank_tuples_front_desc_perm [pHHH] [pLLL, pLLM] [1, 2] rfl

/-! ## find_matches classification loop (lines 255-289) -/

inductive Label : Type
  | matched
  | unmatched
  | possible
deriving DecidableEq

/-- The if / elif / elif classification of one candidate pair in
find_matches.  There is no else branch in the source: a pattern in none of
the three sets yields none, meaning the pair is appended to no output list. -/
def classifyPattern (match_tuples unmatch_tuples possible_tuples : Finset Pattern)
    (t : Pattern) : Option Label :=
  if t ∈ match_tuples then some Label.matched
  else if t ∈ unmatch_tuples then some Label.unmatched
  else if t ∈ possible_tuples then some Label.possible
  else none

/-- A row of the zagat or fodors dataframe. -/
structure RestRecord : Type where
  rest : String
  city : String
  address : String
deriving DecidableEq

def blankRecord : RestRecord := ⟨"", "", ""⟩

/-- The double loop of find_matches over the two dataframes, rows paired with
their dataframe index.  The pattern of a pair of rows comes from the external
scorer as the parameter pat.  With block_on_city the inner loop runs over the
fodors rows whose city equals the city of the current zagat row; index pairs
are appended to the list matching their classification. -/
def find_matches_pairs (pat : RestRecord → RestRecord → Pattern)
    (match_tuples unmatch_tuples possible_tuples : Finset Pattern)
    (zagat fodors : List (Nat × RestRecord)) (block_on_city : Bool) :
    List (Nat × Nat) × List (Nat × Nat) × List (Nat × Nat) :=
  let candidates := fun z : Nat × RestRecord =>
    if block_on_city then fodors.filter (fun f => f.2.city == z.2.city) else fodors
  ( zagat.flatMap (fun z => (candidates z).filterMap (fun f =>
      if classifyPattern match_tuples unmatch_tuples possible_tuples (pat z.2 f.2)
          = some Label.matched then some (z.1, f.1) else none)),
    zagat.flatMap (fun z => (candidates z).filterMap (fun f =>
      if classifyPattern match_tuples unmatch_tuples possible_tuples (pat z.2 f.2)
          = some Label.unmatched then some (z.1, f.1) else none)),
    zagat.flatMap (fun z => (candidates z).filterMap (fun f =>
      if classifyPattern match_tuples unmatch_tuples possible_tuples (pat z.2 f.2)
          = some Label.possible then some (z.1, f.1) else none)) )

/-- C7 counterexample: with all three sets empty, a candidate pair whose
pattern belongs to no set is classified as none and appended to no output
list; no error of any kind is raised. -/
theorem pattern_without_membership_dropped :
    classifyPattern ∅ ∅ ∅ pLLL = none ∧
    find_matches_pairs (fun _ _ => pLLL) ∅ ∅ ∅ [(0, blankRecord)] [(1, blankRecord)]
      false = ([], [], []) := by
  exact ⟨rfl, rfl⟩

/-- C7 amended: a pattern found in none of the three sets is silently
dropped: the pair is appended to no output list, and no error is raised (the
classification chain of find_matches has no else branch). -/
theorem classifyPattern_none_of_not_mem
    (match_tuples unmatch_tuples possible_tuples : Finset Pattern) (t : Pattern)
    (h1 : t ∉ match_tuples) (h2 : t ∉ unmatch_tuples) (h3 : t ∉ possible_tuples) :
    classifyPattern match_tuples unmatch_tuples possible_tuples t = none := by
  rw [classifyPattern, if_neg h1, if_neg h2, if_neg h3]

theorem classifyPattern_none_of_not_mem_witness :
    classifyPattern {pHHH} ∅ ∅ pLLL = none :=
  classifyPattern_none_of_not_mem {pHHH} ∅ ∅ pLLL (by decide) (by decide) (by decide)

/-! ## C9: blocking equivalence -/

/-- The row of a dataframe at a given index (dataframe indices are unique in
pandas dataframes loaded from the restaurant files). -/
def lookupRec (rows : List (Nat × RestRecord)) (i : Nat) : RestRecord :=
  ((rows.find? (fun x => x.1 == i)).getD (0, blankRecord)).2

theorem lookupRec_eq (rows : List (Nat × RestRecord))
    (hkeys : (rows.map Prod.fst).Nodup) :
    ∀ x ∈ rows, lookupRec rows x.1 = x.2 := by
  induction rows with
  | nil =>
    intro x hx
    simp at hx
  | cons a rs ih =>
    intro x hx
    rw [List.map_cons, List.nodup_cons] at hkeys
    by_cases hax : a.1 = x.1
    · have hfind : (a :: rs).find? (fun p => p.1 == x.1) = some a :=
        List.find?_cons_of_pos rs (by simpa using hax)
      rw [lookupRec, hfind]
      rcases List.mem_cons.mp hx with rfl | hx2
      · rfl
      · exact absurd (hax ▸ List.mem_map_of_mem Prod.fst hx2) hkeys.1
    · have hfind : (a :: rs).find? (fun p => p.1 == x.1) = rs.find? (fun p => p.1 == x.1) :=
        List.find?_cons_of_neg rs (by simpa using hax)
      rw [lookupRec, hfind]
      rcases List.mem_cons.mp hx with rfl | hx2
      · exact absurd rfl hax
      · exact ih hkeys.2 x hx2

theorem filterMap_filter_agree {α β : Type} (g : α → Option β) (q : α → Bool)
    (q2 : β → Bool) :
    ∀ l : List α, (∀ x ∈ l, ∀ y, g x = some y → q x = q2 y) →
      (l.filter q).filterMap g = (l.filterMap g).filter q2 := by
  intro l
  induction l with
  | nil =>
    intro _
    rfl
  | cons a t ih =>
    intro h
    have ht : ∀ x ∈ t, ∀ y, g x = some y → q x = q2 y :=
      fun x hx => h x (List.mem_cons_of_mem a hx)
    rcases hga : g a with _ | b
    · rw [List.filter_cons, List.filterMap_cons_none hga]
      split
      · rw [List.filterMap_cons_none hga]
        exact ih ht
      · exact ih ht
    · have hq : q a = q2 b := h a (List.mem_cons_self a t) b hga
      rw [List.filter_cons, List.filterMap_cons_some hga, List.filter_cons, ← hq]
      by_cases hqa : q a = true
      · rw [if_pos hqa, if_pos hqa, List.filterMap_cons_some hga, ih ht]
      · rw [if_neg hqa, if_neg hqa, ih ht]

theorem flatMap_congr_mem {α β : Type} (l : List α) (f g : α → List β)
    (h : ∀ a ∈ l, f a = g a) : l.flatMap f = l.flatMap g := by
  induction l with
  | nil => rfl
  | cons a t ih =>
    rw [List.flatMap_cons, List.flatMap_cons, h a (List.mem_cons_self a t),
      ih (fun x hx => h x (List.mem_cons_of_mem a hx))]

/-- One output list of find_matches_pairs: with blocking it equals the
no-blocking list filtered to the pairs whose city fields agree. -/
theorem find_matches_component_blocking (pat : RestRecord → RestRecord → Pattern)
    (match_tuples unmatch_tuples possible_tuples : Finset Pattern) (lbl : Label)
    (zagat fodors : List (Nat × RestRecord))
    (hz : (zagat.map Prod.fst).Nodup) (hf : (fodors.map Prod.fst).Nodup) :
    zagat.flatMap (fun z => (fodors.filter (fun f => f.2.city == z.2.city)).filterMap
        (fun f => if classifyPattern match_tuples unmatch_tuples possible_tuples
            (pat z.2 f.2) = some lbl then some (z.1, f.1) else none))
      = (zagat.flatMap (fun z => fodors.filterMap
          (fun f => if classifyPattern match_tuples unmatch_tuples possible_tuples
              (pat z.2 f.2) = some lbl then some (z.1, f.1) else none))).filter
          (fun p => (lookupRec fodors p.2).city == (lookupRec zagat p.1).city) := by
  rw [List.filter_flatMap]
  apply flatMap_congr_mem
  intro z hz2
  apply filterMap_filter_agree
  intro f hf2 y hy
  have hyval : y = (z.1, f.1) := by
    by_cases hc : classifyPattern match_tuples unmatch_tuples possible_tuples
        (pat z.2 f.2) = some lbl
    · rw [if_pos hc] at hy
      exact (Option.some.inj hy).symm
    · rw [if_neg hc] at hy
      exact absurd hy (Option.noConfusion)
  rw [hyval]
  have hlf : lookupRec fodors f.1 = f.2 := lookupRec_eq fodors hf f hf2
  have hlz : lookupRec zagat z.1 = z.2 := lookupRec_eq zagat hz z hz2
  rw [hlf, hlz]

/-- C9: classification with blocking on city equals classification without
blocking restricted afterwards to the index pairs whose city fields are
equal; the pattern of a retained pair is computed identically in both modes,
so blocking only prunes pairs with differing city. -/
theorem find_matches_blocking_equiv (pat : RestRecord → RestRecord → Pattern)
    (match_tuples unmatch_tuples possible_tuples : Finset Pattern)
    (zagat fodors : List (Nat × RestRecord))
    (hz : (zagat.map Prod.fst).Nodup) (hf : (fodors.map Prod.fst).Nodup) :
    find_matches_pairs pat match_tuples unmatch_tuples possible_tuples zagat fodors true =
      ((find_matches_pairs pat match_tuples unmatch_tuples possible_tuples
          zagat fodors false).1.filter
          (fun p => (lookupRec fodors p.2).city == (lookupRec zagat p.1).city),
       (find_matches_pairs pat match_tuples unmatch_tuples possible_tuples
          zagat fodors false).2.1.filter
          (fun p => (lookupRec fodors p.2).city == (lookupRec zagat p.1).city),
       (find_matches_pairs pat match_tuples unmatch_tuples possible_tuples
          zagat fodors false).2.2.filter
          (fun p => (lookupRec fodors p.2).city == (lookupRec zagat p.1).city)) := by
  have h1 := find_matches_component_blocking pat match_tuples unmatch_tuples possible_tuples
    Label.matched zagat fodors hz hf
  have h2 := find_matches_component_blocking pat match_tuples unmatch_tuples possible_tuples
    Label.unmatched zagat fodors hz hf
  have h3 := find_matches_component_blocking pat match_tuples unmatch_tuples possible_tuples
    Label.possible zagat fodors hz hf
  exact Prod.ext h1 (Prod.ext h2 h3)

theorem find_matches_blocking_equiv_witness :
    find_matches_pairs (fun _ _ => pLLL) {pLLL} ∅ ∅
        [(0, ⟨"a", "x", "s"⟩)] [(1, ⟨"b", "x", "t"⟩)] true =
      ((find_matches_pairs (fun _ _ => pLLL) {pLLL} ∅ ∅
          [(0, ⟨"a", "x", "s"⟩)] [(1, ⟨"b", "x", "t"⟩)] false).1.filter
          (fun p => (lookupRec [(1, ⟨"b", "x", "t"⟩)] p.2).city
            == (lookupRec [(0, ⟨"a", "x", "s"⟩)] p.1).city),
       (find_matches_pairs (fun _ _ => pLLL) {pLLL} ∅ ∅
          [(0, ⟨"a", "x", "s"⟩)] [(1, ⟨"b", "x", "t"⟩)] false).2.1.filter
          (fun p => (lookupRec [(1, ⟨"b", "x", "t"⟩)] p.2).city
            == (lookupRec [(0, ⟨"a", "x", "s"⟩)] p.1).city),
       (find_matches_pairs (fun _ _ => pLLL) {pLLL} ∅ ∅
          [(0, ⟨"a", "x", "s"⟩)] [(1, ⟨"b", "x", "t"⟩)] false).2.2.filter
          (fun p => (lookupRec [(1, ⟨"b", "x", "t"⟩)] p.2).city
            == (lookupRec [(0, ⟨"a", "x", "s"⟩)] p.1).city)) :=
  find_matches_blocking_equiv (fun _ _ => pLLL) {pLLL} ∅ ∅
    [(0, ⟨"a", "x", "s"⟩)] [(1, ⟨"b", "x", "t"⟩)] (by decide) (by decide)

/-! ## C10: the in-place reversal of sort_by_cum_pr and its frame -/

/-- A variant of create_sets whose ranked_set is built from the ranked list
as it was before the two sort_by_cum_pr calls (instead of its state after the
in-place reversal). -/
def create_sets_unmutated (freqs_m freqs_u : Pattern → ℚ) (mu lmbda : ℚ) :
    Finset Pattern × Finset Pattern × Finset Pattern :=
  (possibleTriage freqs_m freqs_u ∪
      ((rankedList freqs_m freqs_u).toFinset \
        (matchTuples freqs_m freqs_u mu ∪ unmatchTuples freqs_m freqs_u mu lmbda)),
    matchTuples freqs_m freqs_u mu, unmatchTuples freqs_m freqs_u mu lmbda)

/-- C10: sort_by_cum_pr leaves its ranked argument reversed when left_tail is
false and untouched when left_tail is true, and the sets returned by
create_sets do not depend on that mutation, because the leftover computation
uses only the set of ranked tuples and reversal preserves that set. -/
theorem sort_by_cum_pr_mutation_frame :
    (∀ (level : ℚ) (ranked : List Pattern) (freqs : Pattern → ℚ),
        (sort_by_cum_pr level ranked freqs false).2 = ranked.reverse) ∧
    (∀ (level : ℚ) (ranked : List Pattern) (freqs : Pattern → ℚ),
        (sort_by_cum_pr level ranked freqs true).2 = ranked) ∧
    (∀ (freqs_m freqs_u : Pattern → ℚ) (mu lmbda : ℚ),
        create_sets freqs_m freqs_u mu lmbda = create_sets_unmutated freqs_m freqs_u mu lmbda) := by
  refine ⟨fun _ _ _ => rfl, fun _ _ _ => rfl, fun freqs_m freqs_u mu lmbda => ?_⟩
  rw [create_sets, create_sets_unmutated, possibleTuples, rankedAfterUnmatch_eq,
    List.toFinset_reverse]

theorem tuple_probs_full_domain_unit_sum_witness :
    ∃ f : Pattern → ℚ, tuple_probs [pLLL] = Except.ok f ∧
      (∀ t : Pattern, t ∈ patternDomain) ∧
      (∀ t : Pattern, 0 ≤ f t ∧ f t ≤ 1) ∧
      ∑ t in patternDomain.toFinset, f t = 1 :=
  tuple_probs_full_domain_unit_sum [pLLL] (by decide)
